import Mathlib

/-!
Verification of the chunked concurrent download engine of go-downloader.

The Go sources are embedded shallowly: the `Chunk` struct and its operations
(`internal/download/downloader.go`), the chunk planner `CalculateChunks`, the
validator `ValidateChunks`, the merger `MergeFiles` (`internal/utils/file.go`),
and the worker pool / retry coordinator (`worker.go`).  Go `int`/`int64`
values are modelled as `Int` (the guarded call sites never overflow 64 bits,
and every division in the sources happens on positive operands, where Go's
truncated division agrees with `Int.tdiv`).  Effectful pieces are made
explicit: file contents are a map from path to optional byte list, and the
outcome of one ranged HTTP fetch is an oracle argument.  The per-chunk mutex
only serialises in-place mutation in Go and has no functional content in this
sequential embedding.
-/

/-- One contiguous byte range of the remote resource; mirrors `struct Chunk`
in `downloader.go` field by field (the `sync.Mutex` field is omitted: it
guards in-place mutation and carries no functional state). -/
structure Chunk where
  ID : Int
  URL : String
  Start : Int
  End : Int
  TempFile : String
  Size : Int
  Downloaded : Int
  Completed : Bool
  Failed : Bool
  RetryCount : Int
  deriving Repr, DecidableEq

/-- `NewChunk` from `downloader.go`: `Size = end - start + 1`, all mutable
state zeroed.  `filepath.Join(tempDir, fmt.Sprintf("chunk_%d", id))` is
modelled as plain string concatenation; no claim inspects the path beyond
equality, so path cleaning is irrelevant. -/
def NewChunk (id : Int) (url : String) (start endOff : Int) (tempDir : String) : Chunk :=
  { ID := id
    URL := url
    Start := start
    End := endOff
    Size := endOff - start + 1
    TempFile := tempDir ++ "/chunk_" ++ toString id
    Downloaded := 0
    Completed := false
    Failed := false
    RetryCount := 0 }

/-- `Chunk.UpdateProgress`: add `bytesRead` to `Downloaded`; set `Completed`
once `Downloaded >= Size` (and leave it unchanged otherwise, exactly as the
Go `if` does). -/
def Chunk.UpdateProgress (c : Chunk) (bytesRead : Int) : Chunk :=
  let d := c.Downloaded + bytesRead
  { c with Downloaded := d, Completed := if c.Size ≤ d then true else c.Completed }

/-- `Chunk.MarkFailed`: set `Failed` and increment `RetryCount`. -/
def Chunk.MarkFailed (c : Chunk) : Chunk :=
  { c with Failed := true, RetryCount := c.RetryCount + 1 }

/-- `Chunk.ResetForRetry`: clear `Downloaded` and `Failed`.  The `os.Remove`
of the stale temp file is a disk side effect outside this state model; the
`TempFile` path field itself is untouched, as are `Completed` and
`RetryCount`. -/
def Chunk.ResetForRetry (c : Chunk) : Chunk :=
  { c with Downloaded := 0, Failed := false }

/-- `CalculateChunks` from `downloader.go`: fail on non-positive size,
normalise `numChunks <= 0` to 1, clamp the count down to `fileSize`, then cut
`[0, fileSize-1]` into `numChunks` ranges of `fileSize / numChunks` bytes,
the last one absorbing the remainder.  Go's `/` on positive `int64` is
truncated division, i.e. `Int.tdiv`. -/
def CalculateChunks (url : String) (fileSize : Int) (numChunks : Int) (tempDir : String) :
    Option (List Chunk) :=
  if fileSize ≤ 0 then
    none
  else
    let n1 : Int := if numChunks ≤ 0 then 1 else numChunks
    let n : Int := if fileSize < n1 then fileSize else n1
    let chunkSize : Int := fileSize.tdiv n
    some ((List.range n.toNat).map fun (i : Nat) =>
      let start : Int := (i : Int) * chunkSize
      let endOff : Int := if i = n.toNat - 1 then fileSize - 1 else start + chunkSize - 1
      NewChunk (i : Int) url start endOff tempDir)

/-- `ValidateChunks`: the Go loop with early `return false` on the first
chunk that is not completed or is failed. -/
def ValidateChunks : List Chunk → Bool
  | [] => true
  | c :: rest => if !c.Completed || c.Failed then false else ValidateChunks rest

/-- `GetTempFilePaths`: temp-file paths in chunk-index order. -/
def GetTempFilePaths (chunks : List Chunk) : List String :=
  chunks.map fun c => c.TempFile

/-- `MergeFiles` from `internal/utils/file.go`.  The filesystem is modelled
as a map from path to optional byte content (`none` = `os.Open` fails); the
merged output content is returned instead of being written to disk.  The Go
loop appends each input file's bytes to the output in list order and aborts
on the first open failure. -/
def MergeFiles (fs : String → Option (List Nat)) : List String → Option (List Nat)
  | [] => some []
  | p :: rest =>
    match fs p with
    | none => none
    | some data =>
      match MergeFiles fs rest with
      | none => none
      | some out => some (data ++ out)

/-- Outcome of one ranged fetch attempt by `Worker.downloadChunk`
(`worker.go`): the network and the disk are external, so they enter the model
as an oracle.  `writes` are the sizes of the successive buffered writes that
reached the temp file before the attempt ended; `err` is the error that ended
it (`none` = the body streamed to EOF and the function returned `nil`). -/
structure FetchOutcome where
  writes : List Int
  err : Option String
  deriving Repr, DecidableEq

/-- `Result` from `worker.go`: a chunk paired with an optional error.  In Go
the `Chunk` field is a pointer to the shared chunk; here it holds the chunk's
state when the result was emitted. -/
structure Result where
  Chunk : Chunk
  Error : Option String
  deriving Repr, DecidableEq

/-- The body of `Worker.Start` for one dequeued chunk: run the fetch
(updating progress once per buffered write, in order), and on error mark the
chunk failed and record the error in the result.  Returns the chunk's final
state and the emitted result. -/
def processChunk (fetch : Chunk → FetchOutcome) (c : Chunk) : Chunk × Result :=
  let o := fetch c
  let c1 := o.writes.foldl Chunk.UpdateProgress c
  match o.err with
  | some e => ((c1.MarkFailed), { Chunk := c1.MarkFailed, Error := some e })
  | none => (c1, { Chunk := c1, Error := none })

set_option linter.unusedVariables false in
/-- `StartWorkerPool` from `worker.go`: every chunk is enqueued exactly once,
each dequeue produces exactly one result, and the function returns a `nil`
pool-level error unconditionally.  The concurrent interleaving is normalised
to queue order (with at least one worker the Go pool drains the whole queue;
which worker processes which chunk never affects the per-chunk outcome,
since distinct chunks share no state). `numWorkers` only shapes the
scheduling, so it is unused by the sequential model. -/
def StartWorkerPool (fetch : Chunk → FetchOutcome) (numWorkers : Int)
    (chunks : List Chunk) : (List Chunk × List Result) × Option String :=
  let processed := chunks.map (processChunk fetch)
  ((processed.map Prod.fst, processed.map Prod.snd), none)

/-- The selection test of `RetryFailedChunks`:
`chunk.Failed && chunk.RetryCount < maxRetries`. -/
def retryEligible (maxRetries : Int) (c : Chunk) : Bool :=
  c.Failed && decide (c.RetryCount < maxRetries)

/-- The result-scanning loop at the end of `RetryFailedChunks`: the first
result carrying an error aborts with `fmt.Errorf("chunk %d failed: %w", ...)`. -/
def firstError : List Result → Option String
  | [] => none
  | r :: rest =>
    match r.Error with
    | some e => some ("chunk " ++ toString r.Chunk.ID ++ " failed: " ++ e)
    | none => firstError rest

/-- `RetryFailedChunks` from `worker.go`: select the chunks with
`Failed && RetryCount < maxRetries`, resetting each selected chunk as it is
collected; if none qualify return `nil` with every chunk untouched; otherwise
run the pool again with one worker per selected chunk and fail with the first
chunk-level error among the retry results.  The returned list is the final
state of every chunk (in Go the selected chunks are mutated through
pointers inside the original slice). -/
def RetryFailedChunks (fetch : Chunk → FetchOutcome) (chunks : List Chunk)
    (maxRetries : Int) : List Chunk × Option String :=
  let failedChunks := (chunks.filter (retryEligible maxRetries)).map Chunk.ResetForRetry
  if failedChunks.isEmpty then
    (chunks, none)
  else
    let pool := StartWorkerPool fetch failedChunks.length failedChunks
    let updated := chunks.map fun c =>
      if retryEligible maxRetries c then (processChunk fetch c.ResetForRetry).fst else c
    (updated,
      match pool.snd with
      | some e => some e
      | none => firstError pool.fst.snd)

/-- The data-model invariant stated in the spec:
`completed` is true iff `downloaded >= size`. -/
def ChunkInv (c : Chunk) : Prop :=
  c.Completed = true ↔ c.Size ≤ c.Downloaded

/-- `UpdateProgress` adds the byte count to `Downloaded`. -/
lemma updateProgress_downloaded (c : Chunk) (n : Int) :
    (c.UpdateProgress n).Downloaded = c.Downloaded + n := rfl

/-- `UpdateProgress` sets `Completed` exactly when the new total reaches
`Size`, otherwise keeps the old flag. -/
lemma updateProgress_completed (c : Chunk) (n : Int) :
    (c.UpdateProgress n).Completed =
      (if c.Size ≤ c.Downloaded + n then true else c.Completed) := rfl

/-- `UpdateProgress` never touches `Size`. -/
lemma updateProgress_size (c : Chunk) (n : Int) : (c.UpdateProgress n).Size = c.Size := rfl

/-- Folding `UpdateProgress` over a list of byte counts adds exactly their
sum to `Downloaded`. -/
lemma foldl_update_downloaded (l : List Int) (c : Chunk) :
    (l.foldl Chunk.UpdateProgress c).Downloaded = c.Downloaded + l.sum := by
  induction l generalizing c with
  | nil => simp
  | cons a t ih =>
    rw [List.foldl_cons, ih, updateProgress_downloaded, List.sum_cons]
    ring

/-- An incomplete chunk stays incomplete while the running total of
non-negative byte counts stays below `Size`. -/
lemma foldl_update_not_completed (l : List Int) (c : Chunk)
    (hnn : ∀ x ∈ l, 0 ≤ x) (hc : c.Completed = false)
    (hlt : c.Downloaded + l.sum < c.Size) :
    (l.foldl Chunk.UpdateProgress c).Completed = false := by
  induction l generalizing c with
  | nil => simpa using hc
  | cons a t ih =>
    rw [List.foldl_cons]
    have ht : 0 ≤ t.sum := List.sum_nonneg fun x hx => hnn x (List.mem_cons_of_mem a hx)
    have ha : 0 ≤ a := hnn a (List.mem_cons_self a t)
    rw [List.sum_cons] at hlt
    refine ih (c.UpdateProgress a) (fun x hx => hnn x (List.mem_cons_of_mem a hx)) ?_ ?_
    · rw [updateProgress_completed, if_neg (by omega), hc]
    · rw [updateProgress_downloaded, updateProgress_size]
      omega

/-- A non-empty update sequence whose total reaches `Size` completes the
chunk: the final call sees the full total. -/
lemma foldl_update_completed (a : Int) (t : List Int) (c : Chunk)
    (hge : c.Size ≤ c.Downloaded + a + t.sum) :
    ((a :: t).foldl Chunk.UpdateProgress c).Completed = true := by
  induction t generalizing a c with
  | nil =>
    rw [List.foldl_cons, List.foldl_nil, updateProgress_completed,
      if_pos (by simpa using hge)]
  | cons b t ih =>
    rw [List.foldl_cons]
    refine ih b (c.UpdateProgress a) ?_
    rw [updateProgress_size, updateProgress_downloaded, List.sum_cons] at *
    omega

/-- `ValidateChunks` is the conjunction of `Completed && !Failed` over the
list. -/
lemma validateChunks_eq_all (cs : List Chunk) :
    ValidateChunks cs = cs.all fun c => c.Completed && !c.Failed := by
  induction cs with
  | nil => rfl
  | cons c t ih =>
    cases hC : c.Completed <;> cases hF : c.Failed <;>
      simp [ValidateChunks, ih, hC, hF]

/-- `ValidateChunks` returns true exactly when every chunk is completed and
not failed. -/
lemma validateChunks_true_iff (cs : List Chunk) :
    ValidateChunks cs = true ↔ ∀ c ∈ cs, c.Completed = true ∧ c.Failed = false := by
  simp [validateChunks_eq_all, List.all_eq_true]

/-- On positive operands Go's truncated division sits between 1 and
`fileSize / n` bytes per chunk: the planner's chunk size is at least 1 and
`n` chunks of it do not exceed the file. -/
lemma tdiv_facts (fs n : Int) (h1 : 1 ≤ n) (h2 : n ≤ fs) :
    1 ≤ fs.tdiv n ∧ n * fs.tdiv n ≤ fs := by
  rw [Int.tdiv_eq_ediv (by omega) (by omega)]
  constructor
  · rw [Int.le_ediv_iff_mul_le (by omega : (0 : Int) < n)]
    omega
  · have hmod := Int.emod_nonneg fs (by omega : n ≠ 0)
    have hdm := Int.ediv_add_emod fs n
    linarith

/-- Closed form of the planner on its success domain: the clamped count is
`min fileSize (max 1 numChunks)` and chunk `i` is the range starting at
`i * chunkSize`. -/
lemma calculateChunks_pos_eq (url tempDir : String) (fileSize numChunks : Int)
    (hpos : 0 < fileSize) :
    CalculateChunks url fileSize numChunks tempDir =
      some ((List.range (min fileSize (max 1 numChunks)).toNat).map fun (i : Nat) =>
        NewChunk (i : Int) url ((i : Int) * fileSize.tdiv (min fileSize (max 1 numChunks)))
          (if i = (min fileSize (max 1 numChunks)).toNat - 1 then fileSize - 1
           else (i : Int) * fileSize.tdiv (min fileSize (max 1 numChunks)) +
             fileSize.tdiv (min fileSize (max 1 numChunks)) - 1) tempDir) := by
  have hn : (if fileSize < (if numChunks ≤ 0 then 1 else numChunks) then fileSize
      else (if numChunks ≤ 0 then 1 else numChunks)) = min fileSize (max 1 numChunks) := by
    split_ifs <;> omega
  simp only [CalculateChunks, if_neg (show ¬fileSize ≤ 0 by omega), hn]

/-- Every entry of a successful plan is the `NewChunk` of its index, with the
closed-form range. -/
lemma calculateChunks_getElem (url tempDir : String) (fileSize numChunks : Int)
    (hpos : 0 < fileSize) {cs : List Chunk}
    (heq : CalculateChunks url fileSize numChunks tempDir = some cs)
    (i : Nat) (c : Chunk) (hc : cs[i]? = some c) :
    i < (min fileSize (max 1 numChunks)).toNat ∧
    c = NewChunk (i : Int) url ((i : Int) * fileSize.tdiv (min fileSize (max 1 numChunks)))
        (if i = (min fileSize (max 1 numChunks)).toNat - 1 then fileSize - 1
         else (i : Int) * fileSize.tdiv (min fileSize (max 1 numChunks)) +
           fileSize.tdiv (min fileSize (max 1 numChunks)) - 1) tempDir := by
  rw [calculateChunks_pos_eq url tempDir fileSize numChunks hpos] at heq
  obtain rfl : cs = _ := (Option.some.inj heq).symm
  rw [List.getElem?_map] at hc
  rcases hrange : (List.range (min fileSize (max 1 numChunks)).toNat)[i]? with _ | j
  · rw [hrange] at hc; simp at hc
  · have hi : i < (min fileSize (max 1 numChunks)).toNat := by
      have := (List.getElem?_eq_some.mp hrange).1
      simpa using this
    rw [List.getElem?_range hi] at hc
    exact ⟨hi, (Option.some.inj hc).symm⟩

/-- Length of a successful plan: the clamped thread count. -/
lemma calculateChunks_length (url tempDir : String) (fileSize numChunks : Int)
    (hpos : 0 < fileSize) {cs : List Chunk}
    (heq : CalculateChunks url fileSize numChunks tempDir = some cs) :
    cs.length = (min fileSize (max 1 numChunks)).toNat := by
  rw [calculateChunks_pos_eq url tempDir fileSize numChunks hpos] at heq
  obtain rfl : cs = _ := (Option.some.inj heq).symm
  simp

/-- Claim C1: for every `contentLength > 0` and every requested thread count,
`CalculateChunks` succeeds and returns chunks whose inclusive ranges are
contiguous, non-overlapping and exactly cover `[0, contentLength-1]`:
chunk 0 starts at offset 0, each subsequent chunk starts at its
predecessor's end plus 1, every chunk except the last has size
`contentLength / threadCount` (truncated division, count after clamping to
`min contentLength (max 1 requested)`), and the last chunk ends at
`contentLength - 1`.  (Each range is non-degenerate and `Size` matches the
range, so the listed facts pin the exact disjoint cover.) -/
theorem calculateChunks_exact_cover (url tempDir : String) (fileSize numChunks : Int)
    (hpos : 0 < fileSize) :
    ∃ cs, CalculateChunks url fileSize numChunks tempDir = some cs ∧
      0 < cs.length ∧
      (∀ (i : Nat) (c : Chunk), cs[i]? = some c → c.Start ≤ c.End ∧ c.Size = c.End - c.Start + 1) ∧
      (∀ (c : Chunk), cs[0]? = some c → c.Start = 0) ∧
      (∀ (i : Nat) (c c2 : Chunk), cs[i]? = some c → cs[i + 1]? = some c2 →
          c2.Start = c.End + 1 ∧
          c.Size = fileSize.tdiv (min fileSize (max 1 numChunks))) ∧
      (∀ (c : Chunk), cs[cs.length - 1]? = some c → c.End = fileSize - 1) := by
  obtain ⟨cs, heq⟩ : ∃ cs, CalculateChunks url fileSize numChunks tempDir = some cs :=
    ⟨_, calculateChunks_pos_eq url tempDir fileSize numChunks hpos⟩
  have hN1 : 1 ≤ min fileSize (max 1 numChunks) := by omega
  have hNle : min fileSize (max 1 numChunks) ≤ fileSize := by omega
  obtain ⟨hK1, hKN⟩ := tdiv_facts fileSize (min fileSize (max 1 numChunks)) hN1 hNle
  have hlen := calculateChunks_length url tempDir fileSize numChunks hpos heq
  refine ⟨cs, heq, by omega, ?_, ?_, ?_, ?_⟩
  · intro i c hc
    obtain ⟨hi, rfl⟩ := calculateChunks_getElem url tempDir fileSize numChunks hpos heq i c hc
    simp only [NewChunk]
    refine ⟨?_, by trivial⟩
    split_ifs with hlast
    · have hcast : (i : Int) = min fileSize (max 1 numChunks) - 1 := by omega
      rw [hcast]
      have hexp : (min fileSize (max 1 numChunks) - 1) *
          fileSize.tdiv (min fileSize (max 1 numChunks)) =
          min fileSize (max 1 numChunks) * fileSize.tdiv (min fileSize (max 1 numChunks)) -
            fileSize.tdiv (min fileSize (max 1 numChunks)) := by ring
      linarith
    · linarith
  · intro c hc
    obtain ⟨hi, rfl⟩ := calculateChunks_getElem url tempDir fileSize numChunks hpos heq 0 c hc
    simp [NewChunk]
  · intro i c c2 hc hc2
    obtain ⟨hi, rfl⟩ := calculateChunks_getElem url tempDir fileSize numChunks hpos heq i c hc
    obtain ⟨hi2, rfl⟩ := calculateChunks_getElem url tempDir fileSize numChunks hpos heq
      (i + 1) c2 hc2
    have hnotlast : ¬(i = (min fileSize (max 1 numChunks)).toNat - 1) := by omega
    simp only [NewChunk, if_neg hnotlast]
    constructor
    · push_cast
      ring
    · ring
  · intro c hc
    obtain ⟨hi, rfl⟩ := calculateChunks_getElem url tempDir fileSize numChunks hpos heq
      (cs.length - 1) c hc
    have hlast : cs.length - 1 = (min fileSize (max 1 numChunks)).toNat - 1 := by omega
    simp only [NewChunk, if_pos hlast]

/-- Claim C1 witness: a concrete successful plan for a 10-byte file with 4
requested threads. -/
theorem calculateChunks_exact_cover_witness :
    (0 : Int) < 10 ∧ ∃ cs, CalculateChunks "u" 10 4 "t" = some cs ∧ 0 < cs.length := by
  obtain ⟨cs, h1, h2, _⟩ := calculateChunks_exact_cover "u" "t" 10 4 (by decide)
  exact ⟨by decide, cs, h1, h2⟩

/-- Claim C7: for every `contentLength > 0` the number of chunks equals the
requested count clamped to at least 1 and at most `contentLength`; a
requested count `<= 0` yields exactly one chunk covering the whole file, and
a requested count above `contentLength` yields exactly `contentLength`
chunks, each of size 1. -/
theorem calculateChunks_count_clamped (url tempDir : String) (fileSize numChunks : Int)
    (hpos : 0 < fileSize) :
    ∃ cs, CalculateChunks url fileSize numChunks tempDir = some cs ∧
      cs.length = (min fileSize (max 1 numChunks)).toNat ∧
      (numChunks ≤ 0 → cs.length = 1 ∧
        ∀ (c : Chunk), cs[0]? = some c → c.Start = 0 ∧ c.End = fileSize - 1) ∧
      (fileSize < numChunks → cs.length = fileSize.toNat ∧
        ∀ (i : Nat) (c : Chunk), cs[i]? = some c → c.Size = 1) := by
  obtain ⟨cs, heq⟩ : ∃ cs, CalculateChunks url fileSize numChunks tempDir = some cs :=
    ⟨_, calculateChunks_pos_eq url tempDir fileSize numChunks hpos⟩
  have hlen := calculateChunks_length url tempDir fileSize numChunks hpos heq
  refine ⟨cs, heq, hlen, ?_, ?_⟩
  · intro hm
    have h1 : cs.length = 1 := by omega
    refine ⟨h1, ?_⟩
    intro c hc
    obtain ⟨hi, rfl⟩ := calculateChunks_getElem url tempDir fileSize numChunks hpos heq 0 c hc
    have hlast : (0 : Nat) = (min fileSize (max 1 numChunks)).toNat - 1 := by omega
    simp [NewChunk, if_pos hlast]
  · intro hm
    have hNfs : min fileSize (max 1 numChunks) = fileSize := by omega
    have hK : fileSize.tdiv (min fileSize (max 1 numChunks)) = 1 := by
      rw [hNfs, Int.tdiv_eq_ediv (by omega) (by omega), Int.ediv_self (by omega)]
    refine ⟨by omega, ?_⟩
    intro i c hc
    obtain ⟨hi, rfl⟩ := calculateChunks_getElem url tempDir fileSize numChunks hpos heq i c hc
    simp only [NewChunk]
    split_ifs with hlast
    · have hcast : (i : Int) = fileSize - 1 := by omega
      rw [hK, hcast]
      ring
    · rw [hK]
      ring

/-- Claim C7 witness: a 5-byte file with 9 requested threads yields 5 chunks. -/
theorem calculateChunks_count_clamped_witness :
    (0 : Int) < 5 ∧ ∃ cs, CalculateChunks "u" 5 9 "t" = some cs ∧ cs.length = 5 := by
  obtain ⟨cs, h1, h2, _, h4⟩ := calculateChunks_count_clamped "u" "t" 5 9 (by decide)
  exact ⟨by decide, cs, h1, (h4 (by decide)).1⟩

/-- Claim C3 counterexample: the invariant `Completed = true iff
Downloaded >= Size` is not preserved by `ResetForRetry`.  Complete a size-1
chunk created by `NewChunk` (with `start = end = 0`, so `start <= end`) and
reset it: `Completed` stays true while `Downloaded` drops back to 0. -/
theorem chunk_inv_reset_counterexample :
    ¬ ChunkInv (((NewChunk 0 "u" 0 0 "t").UpdateProgress 1).ResetForRetry) := by
  unfold ChunkInv
  decide

/-- Claim C3 (amended): for every chunk created by `NewChunk` with
`start <= end`, the invariant `Completed = true iff Downloaded >= Size` holds
initially and is preserved by `UpdateProgress` with a non-negative byte count
and by `MarkFailed`; `ResetForRetry` re-establishes it exactly for chunks
whose `Completed` flag is false (positivity of `Size` is maintained by all
three operations), but breaks it on a completed chunk, so the original
claim's obligation on `ResetForRetry` had to be restricted to non-completed
chunks. -/
theorem chunk_inv_preservation (id : Int) (url : String) (start endOff : Int)
    (tempDir : String) (hse : start ≤ endOff) :
    ChunkInv (NewChunk id url start endOff tempDir) ∧
    0 < (NewChunk id url start endOff tempDir).Size ∧
    (∀ (c : Chunk) (n : Int), 0 ≤ n → ChunkInv c → ChunkInv (c.UpdateProgress n)) ∧
    (∀ c : Chunk, ChunkInv c → ChunkInv c.MarkFailed) ∧
    (∀ c : Chunk, 0 < c.Size → c.Completed = false → ChunkInv c.ResetForRetry) ∧
    (∀ (c : Chunk) (n : Int), (c.UpdateProgress n).Size = c.Size ∧
      c.MarkFailed.Size = c.Size ∧ c.ResetForRetry.Size = c.Size) := by
  refine ⟨?_, ?_, ?_, ?_, ?_, ?_⟩
  · unfold ChunkInv NewChunk
    simp
    omega
  · unfold NewChunk
    simp
    omega
  · intro c n hn h
    unfold ChunkInv at h ⊢
    rw [updateProgress_completed, updateProgress_size, updateProgress_downloaded]
    split_ifs with hd
    · simpa using hd
    · constructor
      · intro hc
        have h2 := h.mp hc
        omega
      · intro hle
        exact absurd hle hd
  · intro c h
    unfold ChunkInv at h ⊢
    exact h
  · intro c hs hc
    unfold ChunkInv
    rw [Chunk.ResetForRetry]
    simp [hc]
    omega
  · intro c n
    exact ⟨rfl, rfl, rfl⟩

/-- Claim C3 witness: the amended invariant facts at a concrete size-10
chunk. -/
theorem chunk_inv_preservation_witness :
    (0 : Int) ≤ 9 ∧ ChunkInv (NewChunk 0 "u" 0 9 "t") :=
  ⟨by decide, (chunk_inv_preservation 0 "u" 0 9 "t" (by decide)).1⟩

/-- Claim C4 counterexample: the claim fails for the degenerate chunk
`NewChunk` builds from `start = 1, end = 0` (size 0) and the empty update
sequence: the sum of the (zero) byte counts equals the size, yet the chunk
is not completed. -/
theorem updateProgress_sum_counterexample :
    (∀ x ∈ ([] : List Int), 0 ≤ x) ∧
    ([] : List Int).sum = (NewChunk 0 "u" 1 0 "t").Size ∧
    (([] : List Int).foldl Chunk.UpdateProgress (NewChunk 0 "u" 1 0 "t")).Completed
      = false := by
  refine ⟨by simp, by decide, by decide⟩

/-- Claim C4 (amended): for a chunk freshly created by `NewChunk` with
`start <= end` (so its size S is positive — the degenerate size-0 chunk of
the counterexample is excluded), folding `UpdateProgress` over any finite
sequence of non-negative byte counts leaves `Downloaded` equal to the sum of
the counts (never more than what was explicitly added); if the sum equals S
the chunk is completed, and if the sum is strictly below S it is not. -/
theorem updateProgress_sum (id : Int) (url : String) (start endOff : Int)
    (tempDir : String) (l : List Int) (hse : start ≤ endOff)
    (hnn : ∀ x ∈ l, 0 ≤ x) :
    (l.foldl Chunk.UpdateProgress (NewChunk id url start endOff tempDir)).Downloaded
      = l.sum ∧
    (l.sum = (NewChunk id url start endOff tempDir).Size →
      (l.foldl Chunk.UpdateProgress (NewChunk id url start endOff tempDir)).Completed
        = true) ∧
    (l.sum < (NewChunk id url start endOff tempDir).Size →
      (l.foldl Chunk.UpdateProgress (NewChunk id url start endOff tempDir)).Completed
        = false) := by
  have hd0 : (NewChunk id url start endOff tempDir).Downloaded = 0 := rfl
  have hs : (NewChunk id url start endOff tempDir).Size = endOff - start + 1 := rfl
  refine ⟨?_, ?_, ?_⟩
  · rw [foldl_update_downloaded, hd0]
    ring
  · intro hsum
    rcases l with _ | ⟨a, t⟩
    · rw [List.sum_nil] at hsum
      omega
    · refine foldl_update_completed a t _ ?_
      rw [List.sum_cons] at hsum
      omega
  · intro hsum
    exact foldl_update_not_completed l _ hnn rfl (by omega)

/-- Claim C4 witness: updates of 2 then 3 bytes complete a 5-byte chunk. -/
theorem updateProgress_sum_witness :
    (0 : Int) ≤ 4 ∧
    (([2, 3] : List Int).foldl Chunk.UpdateProgress (NewChunk 0 "u" 0 4 "t")).Downloaded
      = ([2, 3] : List Int).sum ∧
    (([2, 3] : List Int).foldl Chunk.UpdateProgress (NewChunk 0 "u" 0 4 "t")).Completed
      = true := by
  obtain ⟨h1, h2, _⟩ := updateProgress_sum 0 "u" 0 4 "t" [2, 3] (by decide) (by decide)
  exact ⟨by decide, h1, h2 (by decide)⟩

/-- Claim C8: `ResetForRetry` clears `Downloaded` to 0 and `Failed` to
false, and leaves `RetryCount` and the identity and range fields (`ID`,
`URL`, `Start`, `End`, `Size`, `TempFile`) exactly as they were. -/
theorem resetForRetry_frame (c : Chunk) :
    c.ResetForRetry.Downloaded = 0 ∧ c.ResetForRetry.Failed = false ∧
    c.ResetForRetry.RetryCount = c.RetryCount ∧ c.ResetForRetry.ID = c.ID ∧
    c.ResetForRetry.URL = c.URL ∧ c.ResetForRetry.Start = c.Start ∧
    c.ResetForRetry.End = c.End ∧ c.ResetForRetry.Size = c.Size ∧
    c.ResetForRetry.TempFile = c.TempFile :=
  ⟨rfl, rfl, rfl, rfl, rfl, rfl, rfl, rfl, rfl⟩

/-- Claim C10: `MarkFailed` sets `Failed`, increments `RetryCount` by
exactly one, and leaves every other field (`ID`, `URL`, `Start`, `End`,
`Size`, `TempFile`, `Downloaded`, `Completed`) unchanged — in particular it
never discards downloaded bytes or the completion flag; iterating it `k`
times adds exactly `k` to `RetryCount`, which in particular never
decreases. -/
theorem markFailed_frame (c : Chunk) :
    c.MarkFailed.Failed = true ∧
    c.MarkFailed.RetryCount = c.RetryCount + 1 ∧
    c.MarkFailed.ID = c.ID ∧ c.MarkFailed.URL = c.URL ∧
    c.MarkFailed.Start = c.Start ∧ c.MarkFailed.End = c.End ∧
    c.MarkFailed.Size = c.Size ∧ c.MarkFailed.TempFile = c.TempFile ∧
    c.MarkFailed.Downloaded = c.Downloaded ∧
    c.MarkFailed.Completed = c.Completed ∧
    (∀ k : Nat, (Chunk.MarkFailed^[k] c).RetryCount = c.RetryCount + (k : Int)) := by
  refine ⟨rfl, rfl, rfl, rfl, rfl, rfl, rfl, rfl, rfl, rfl, ?_⟩
  intro k
  induction k with
  | zero => simp
  | succ k ih =>
    rw [Function.iterate_succ_apply']
    have hstep : ∀ x : Chunk, x.MarkFailed.RetryCount = x.RetryCount + 1 := fun x => rfl
    rw [hstep, ih]
    push_cast
    ring

/-- Claim C9: for a non-empty chunk list, `ValidateChunks` is true exactly
when every chunk is completed and not failed, and any single incomplete or
failed chunk forces it to false. -/
theorem validateChunks_correct (chunks : List Chunk) (_hne : chunks ≠ []) :
    (ValidateChunks chunks = true ↔
      ∀ c ∈ chunks, c.Completed = true ∧ c.Failed = false) ∧
    (∀ c ∈ chunks, (c.Completed = false ∨ c.Failed = true) →
      ValidateChunks chunks = false) := by
  refine ⟨validateChunks_true_iff chunks, ?_⟩
  intro c hc hbad
  cases hres : ValidateChunks chunks with
  | false => rfl
  | true =>
    have hgood := (validateChunks_true_iff chunks).mp hres c hc
    rcases hbad with h | h <;> simp [h] at hgood

/-- Claim C9 witness: a fresh (incomplete) chunk makes validation false. -/
theorem validateChunks_correct_witness :
    [NewChunk 0 "u" 0 1 "t"] ≠ ([] : List Chunk) ∧
    ValidateChunks [NewChunk 0 "u" 0 1 "t"] = false := by
  refine ⟨by simp, ?_⟩
  exact (validateChunks_correct [NewChunk 0 "u" 0 1 "t"] (by simp)).2
    (NewChunk 0 "u" 0 1 "t") (by simp) (Or.inl rfl)

/-- Merging with a readable head file prepends its bytes to the merge of the
remaining files. -/
lemma mergeFiles_cons (fs : String → Option (List Nat)) (p : String)
    (d : List Nat) (rest : List String) (h : fs p = some d) :
    MergeFiles fs (p :: rest) = (MergeFiles fs rest).map fun out => d ++ out := by
  simp only [MergeFiles, h]
  cases MergeFiles fs rest <;> rfl

/-- Merging any list of readable files yields exactly the concatenation of
their contents in list order. -/
lemma mergeFiles_flatten (fs : String → Option (List Nat)) (paths : List String) :
    ∀ datas : List (List Nat),
      paths.map fs = datas.map some → MergeFiles fs paths = some datas.flatten := by
  induction paths with
  | nil =>
    intro datas h
    cases datas with
    | nil => simp [MergeFiles]
    | cons d ds => simp at h
  | cons p ps ih =>
    intro datas h
    cases datas with
    | nil => simp at h
    | cons d ds =>
      simp only [List.map_cons, List.cons.injEq] at h
      rw [mergeFiles_cons fs p d ps h.1, ih ds h.2]
      simp

/-- Claim C2: `MergeFiles` writes exactly the concatenation of the input
files' contents in the given order (the chunk-index order that
`GetTempFilePaths` produces), for every input list; in particular a 2-byte
file `A` followed by a 3-byte file `B` merges into a 5-byte output whose
first 2 bytes are `A`'s content and next 3 are `B`'s.  The download order of
the chunks does not appear in the merge inputs at all, so the result is
independent of it. -/
theorem mergeFiles_concat (fs : String → Option (List Nat)) (pa pb : String)
    (a b : List Nat) (ha : fs pa = some a) (hb : fs pb = some b)
    (hla : a.length = 2) (hlb : b.length = 3) :
    (∀ (paths : List String) (datas : List (List Nat)),
      paths.map fs = datas.map some → MergeFiles fs paths = some datas.flatten) ∧
    MergeFiles fs [pa, pb] = some (a ++ b) ∧
    (a ++ b).length = 5 ∧
    (a ++ b).take 2 = a ∧
    (a ++ b).drop 2 = b ∧
    (∀ c1 c2 : Chunk, c1.TempFile = pa → c2.TempFile = pb →
      MergeFiles fs (GetTempFilePaths [c1, c2]) = some (a ++ b)) := by
  have hmerge : MergeFiles fs [pa, pb] = some (a ++ b) := by
    have := mergeFiles_flatten fs [pa, pb] [a, b] (by simp [ha, hb])
    simpa using this
  refine ⟨mergeFiles_flatten fs, hmerge, by simp [hla, hlb], ?_, ?_, ?_⟩
  · rw [← hla]
    exact List.take_left a b
  · rw [← hla]
    exact List.drop_left a b
  · intro c1 c2 h1 h2
    rw [GetTempFilePaths]
    simp only [List.map_cons, List.map_nil, h1, h2]
    exact hmerge

/-- Claim C2 witness: concrete 2- and 3-byte files on a concrete
filesystem map. -/
theorem mergeFiles_concat_witness :
    MergeFiles
        (fun p => if p = "a" then some [10, 20]
          else if p = "b" then some [30, 40, 50] else none)
        ["a", "b"]
      = some [10, 20, 30, 40, 50] := by
  have h := mergeFiles_concat
    (fun p => if p = "a" then some [10, 20]
      else if p = "b" then some [30, 40, 50] else none)
    "a" "b" [10, 20] [30, 40, 50] (by decide) (by decide) (by decide) (by decide)
  exact h.2.1

/-- Claim C6: with any worker count (at least 1, so the Go pool makes
progress), `StartWorkerPool` yields exactly one `Result` per input chunk —
the results list has the chunks' length, entry `i` is the result of
processing chunk `i`, and its `Chunk` field is that chunk's final state —
and the pool-level error is `none` no matter how many per-chunk fetches
fail. -/
theorem startWorkerPool_results (fetch : Chunk → FetchOutcome) (numWorkers : Int)
    (chunks : List Chunk) (_hw : 1 ≤ numWorkers) :
    ((StartWorkerPool fetch numWorkers chunks).fst.snd).length = chunks.length ∧
    ((StartWorkerPool fetch numWorkers chunks).fst.fst).length = chunks.length ∧
    (StartWorkerPool fetch numWorkers chunks).snd = none ∧
    (∀ (i : Nat) (c : Chunk), chunks[i]? = some c →
      ((StartWorkerPool fetch numWorkers chunks).fst.snd)[i]?
          = some (processChunk fetch c).snd ∧
      ((StartWorkerPool fetch numWorkers chunks).fst.fst)[i]?
          = some (processChunk fetch c).fst ∧
      ((processChunk fetch c).snd).Chunk = (processChunk fetch c).fst) := by
  refine ⟨by simp [StartWorkerPool], by simp [StartWorkerPool], rfl, ?_⟩
  intro i c hc
  refine ⟨?_, ?_, ?_⟩
  · simp [StartWorkerPool, List.getElem?_map, hc]
  · simp [StartWorkerPool, List.getElem?_map, hc]
  · unfold processChunk
    cases h : (fetch c).err <;> simp [h]

/-- Claim C6 witness: a one-chunk pool with one worker returns one result
and a `none` pool error. -/
theorem startWorkerPool_results_witness :
    (1 : Int) ≤ 1 ∧
    ((StartWorkerPool (fun _ => ⟨[], none⟩) 1 [NewChunk 0 "u" 0 1 "t"]).fst.snd).length
      = 1 ∧
    (StartWorkerPool (fun _ => ⟨[], none⟩) 1 [NewChunk 0 "u" 0 1 "t"]).snd = none := by
  obtain ⟨h1, _, h3, _⟩ := startWorkerPool_results (fun _ => ⟨[], none⟩) 1
    [NewChunk 0 "u" 0 1 "t"] (by decide)
  exact ⟨by decide, by simpa using h1, h3⟩

/-- The retry selection test is exactly the claim's predicate. -/
lemma retryEligible_iff (maxRetries : Int) (c : Chunk) :
    retryEligible maxRetries c = true ↔
      (c.Failed = true ∧ c.RetryCount < maxRetries) := by
  simp [retryEligible]

/-- The error recorded in a chunk's result is exactly the fetch error. -/
lemma processChunk_result_error (fetch : Chunk → FetchOutcome) (c : Chunk) :
    (processChunk fetch c).snd.Error = (fetch c).err := by
  unfold processChunk
  cases h : (fetch c).err <;> simp [h]

/-- The first-error scan returns `none` exactly when no result carries an
error. -/
lemma firstError_eq_none_iff (rs : List Result) :
    firstError rs = none ↔ ∀ r ∈ rs, r.Error = none := by
  induction rs with
  | nil => simp [firstError]
  | cons r t ih =>
    cases h : r.Error with
    | some e => simp [firstError, h]
    | none => simp [firstError, h, ih]

/-- Claim C5: `RetryFailedChunks` resets (Downloaded to 0, Failed to false)
exactly the chunks with `Failed` and `RetryCount < maxRetries` before
re-fetching them (entry `i` of the final states is the re-fetch of the reset
chunk when chunk `i` was selected, and chunk `i` unchanged otherwise); when
no chunk qualifies it returns `nil` leaving every chunk untouched (including
retry-exhausted failures); otherwise it re-runs the pool — the definition
passes one worker per selected chunk, mirroring the source — and returns a
non-`nil` error iff at least one retry result carries an error. -/
theorem retryFailedChunks_spec (fetch : Chunk → FetchOutcome) (chunks : List Chunk)
    (maxRetries : Int) :
    ∃ cs e, RetryFailedChunks fetch chunks maxRetries = (cs, e) ∧
      cs.length = chunks.length ∧
      ((∀ c ∈ chunks, ¬(c.Failed = true ∧ c.RetryCount < maxRetries)) →
        cs = chunks ∧ e = none) ∧
      (∀ (i : Nat) (c : Chunk), chunks[i]? = some c →
        cs[i]? = some (if c.Failed = true ∧ c.RetryCount < maxRetries
          then (processChunk fetch c.ResetForRetry).fst else c)) ∧
      (e ≠ none ↔ ∃ c ∈ chunks, (c.Failed = true ∧ c.RetryCount < maxRetries) ∧
        (fetch c.ResetForRetry).err ≠ none) := by
  by_cases hsel : chunks.filter (retryEligible maxRetries) = []
  · have hnoel : ∀ c ∈ chunks, retryEligible maxRetries c = false := by
      intro c hc
      have := List.filter_eq_nil_iff.mp hsel c hc
      simpa using this
    have heq : RetryFailedChunks fetch chunks maxRetries = (chunks, none) := by
      unfold RetryFailedChunks
      rw [hsel]
      rfl
    refine ⟨chunks, none, heq, rfl, fun _ => ⟨rfl, rfl⟩, ?_, ?_⟩
    · intro i c hc
      have hel := hnoel c (List.getElem?_mem hc)
      rw [if_neg]
      · exact hc
      · intro hcl
        rw [(retryEligible_iff maxRetries c).mpr hcl] at hel
        exact absurd hel (by simp)
    · constructor
      · intro h
        exact absurd rfl h
      · rintro ⟨c, hc, hcl, _⟩
        have hel := hnoel c hc
        rw [(retryEligible_iff maxRetries c).mpr hcl] at hel
        exact absurd hel (by simp)
  · have hne : ((chunks.filter (retryEligible maxRetries)).map Chunk.ResetForRetry).isEmpty
        = false := by
      rw [Bool.eq_false_iff]
      intro habs
      exact hsel (List.map_eq_nil_iff.mp (List.isEmpty_iff.mp habs))
    have heq : RetryFailedChunks fetch chunks maxRetries =
        (chunks.map (fun c => if retryEligible maxRetries c
            then (processChunk fetch c.ResetForRetry).fst else c),
          firstError (((chunks.filter (retryEligible maxRetries)).map Chunk.ResetForRetry).map
            fun c => (processChunk fetch c).snd)) := by
      unfold RetryFailedChunks
      simp [hne, StartWorkerPool, List.map_map, Function.comp]
      rfl
    have hchar : (∀ r ∈ ((chunks.filter (retryEligible maxRetries)).map
          Chunk.ResetForRetry).map (fun c => (processChunk fetch c).snd),
          r.Error = none)
        ↔ ∀ c ∈ chunks, retryEligible maxRetries c = true →
            (fetch c.ResetForRetry).err = none := by
      constructor
      · intro h c hc hel
        have hmem : (processChunk fetch c.ResetForRetry).snd ∈
            ((chunks.filter (retryEligible maxRetries)).map Chunk.ResetForRetry).map
              (fun c => (processChunk fetch c).snd) :=
          List.mem_map_of_mem _
            (List.mem_map_of_mem _ (List.mem_filter.mpr ⟨hc, hel⟩))
        have hr := h _ hmem
        rwa [processChunk_result_error] at hr
      · intro h r hr
        rw [List.mem_map] at hr
        obtain ⟨c', hc', rfl⟩ := hr
        rw [List.mem_map] at hc'
        obtain ⟨c, hcf, rfl⟩ := hc'
        rw [List.mem_filter] at hcf
        rw [processChunk_result_error]
        exact h c hcf.1 hcf.2
    refine ⟨_, _, heq, ?_, ?_, ?_, ?_⟩
    · simp
    · intro h
      exfalso
      obtain ⟨c, hcf⟩ := List.exists_mem_of_ne_nil _ hsel
      rw [List.mem_filter] at hcf
      exact h c hcf.1 ((retryEligible_iff maxRetries c).mp hcf.2)
    · intro i c hc
      rw [List.getElem?_map, hc, Option.map_some']
      by_cases hcl : c.Failed = true ∧ c.RetryCount < maxRetries
      · rw [if_pos hcl, if_pos ((retryEligible_iff maxRetries c).mpr hcl)]
      · rw [if_neg hcl, if_neg]
        intro habs
        exact hcl ((retryEligible_iff maxRetries c).mp habs)
    · constructor
      · intro hne2
        by_contra hnex
        push_neg at hnex
        apply hne2
        rw [firstError_eq_none_iff]
        apply hchar.mpr
        intro c hc hel
        exact hnex c hc ((retryEligible_iff maxRetries c).mp hel)
      · rintro ⟨c, hc, hcl, herr⟩ habs
        rw [firstError_eq_none_iff] at habs
        exact herr (hchar.mp habs c hc ((retryEligible_iff maxRetries c).mpr hcl))

/-- Claim C5 witness: with no failed chunk the coordinator is a no-op
returning `nil`. -/
theorem retryFailedChunks_spec_witness :
    RetryFailedChunks (fun _ => ⟨[5], none⟩) [NewChunk 0 "u" 0 4 "t"] 3
      = ([NewChunk 0 "u" 0 4 "t"], none) := by
  obtain ⟨cs, e, heq, _, hno, _, _⟩ := retryFailedChunks_spec (fun _ => ⟨[5], none⟩)
    [NewChunk 0 "u" 0 4 "t"] 3
  obtain ⟨h1, h2⟩ := hno (by decide)
  rw [heq, h1, h2]
